import Mathlib

/-
Verification development for the fft-image-extractor program
(src/src/main.rs). The windowed-FFT-to-raster mapping engine is embedded
shallowly: machine integers (usize/u32) are modelled by Nat, f32 values by
real numbers, the f32 `ln` primitive by Real.log, and the fallible
division in `row_count` by an Option-returning definition.
-/

namespace FftImage

/- Constants from src/src/main.rs lines 84-86 and 126. -/

def SAMPLING_WINDOW : ℕ := 2048

def FREQUENCY_MAX : ℝ := 10000

def freq_min : ℝ := 20

/- `nearest_power_of_two_below` (main.rs lines 88-94): starts at n = 1 and
doubles while `n * 2 < x`.  The loop is rendered with an explicit fuel
argument; `x` units of fuel always suffice because `n` doubles each step. -/

def npbGo (x : ℕ) : ℕ → ℕ → ℕ
  | 0, n => n
  | fuel + 1, n => if n * 2 < x then npbGo x fuel (n * 2) else n

def nearest_power_of_two_below (x : ℕ) : ℕ := npbGo x x 1

/- Window segmentation (main.rs lines 112, 133-134). -/

def totalColumnsOf (sampleCount : ℕ) : ℕ := sampleCount / SAMPLING_WINDOW

def sample_start (i : ℕ) : ℕ := i * SAMPLING_WINDOW

def sample_end (sampleCount i : ℕ) : ℕ :=
  min ((i + 1) * SAMPLING_WINDOW) sampleCount

/- Band layout (main.rs lines 116-124, 148-149).  `w` is the band width,
`hgt` the per-band row height (cli.width), `total` the column count. -/

def bandWidth (total : ℕ) : ℕ := nearest_power_of_two_below total / 4

def row_count (total w : ℕ) : ℕ := total / w + 1

def img_height (hgt total w : ℕ) : ℕ := hgt * row_count total w

def img_x (i w : ℕ) : ℕ := i % w

def img_row_offset (i w hgt : ℕ) : ℕ := i / w * hgt

/- Rust `total_width / w` panics when `w = 0`; the checked variant returns
none exactly in that case (main.rs line 120). -/

def rowCountChecked (total w : ℕ) : Option ℕ :=
  if w = 0 then none else some (row_count total w)

def layoutChecked (sampleCount hgt : ℕ) : Option (ℕ × ℕ) :=
  match rowCountChecked (totalColumnsOf sampleCount)
      (bandWidth (totalColumnsOf sampleCount)) with
  | none => none
  | some rc => some (bandWidth (totalColumnsOf sampleCount), hgt * rc)

/- Modelled from the spec (section 4.5), for the refinement claim C5:
the spec's own formulas for the band layout, to be compared with the
definitions taken from the code. -/

def spec_bandCount (total w : ℕ) : ℕ := total / w + 1

def spec_bandIndex (i w : ℕ) : ℕ := i / w

def spec_inBandX (i w : ℕ) : ℕ := i % w

/- Helper lemmas for the fuel rendering of `nearest_power_of_two_below`. -/

lemma npbGo_pow2 (x : ℕ) : ∀ fuel n, (∃ k, n = 2 ^ k) → ∃ k, npbGo x fuel n = 2 ^ k := by
  intro fuel
  induction fuel with
  | zero => intro n h; exact h
  | succ m ih =>
    intro n h
    rw [npbGo]
    split
    · refine ih (n * 2) ?_
      obtain ⟨k, hk⟩ := h
      exact ⟨k + 1, by rw [hk]; ring⟩
    · exact h

lemma npbGo_ge (x : ℕ) : ∀ fuel n, x ≤ 2 ^ fuel * n → x ≤ 2 * npbGo x fuel n := by
  intro fuel
  induction fuel with
  | zero => intro n h; rw [npbGo]; omega
  | succ m ih =>
    intro n h
    rw [npbGo]
    split
    · refine ih (n * 2) ?_
      calc x ≤ 2 ^ (m + 1) * n := h
        _ = 2 ^ m * (n * 2) := by ring
    · omega

lemma npbGo_lt (x : ℕ) : ∀ fuel n, n < x → npbGo x fuel n < x := by
  intro fuel
  induction fuel with
  | zero => intro n h; rw [npbGo]; exact h
  | succ m ih =>
    intro n h
    rw [npbGo]
    split
    · next hc => exact ih (n * 2) hc
    · exact h

lemma npb_is_pow2 (x : ℕ) : ∃ k, nearest_power_of_two_below x = 2 ^ k :=
  npbGo_pow2 x x 1 ⟨0, rfl⟩

lemma npb_lt (x : ℕ) (hx : 2 ≤ x) : nearest_power_of_two_below x < x :=
  npbGo_lt x x 1 (by omega)

lemma npb_ge (x : ℕ) : x ≤ 2 * nearest_power_of_two_below x :=
  npbGo_ge x x 1 (by simpa using Nat.le_of_lt (Nat.lt_two_pow x))

/-- C4 (amended): the helper returns the largest power of two strictly
below `totalColumns` (for `totalColumns ≥ 2`): its result is a power of
two, is `< x`, and doubling it reaches `x`.  For `totalColumns = 10` it
returns 8 and the band width is `8 / 4 = 2`.  When `totalColumns` is
itself a power of two `2^k` (k ≥ 1) the helper returns `2^(k-1)`, not
`totalColumns`. -/
theorem C4_nearest_power_of_two (x k : ℕ) (hx : 2 ≤ x) (hk : 1 ≤ k) :
    ((∃ j, nearest_power_of_two_below x = 2 ^ j) ∧
      nearest_power_of_two_below x < x ∧ x ≤ 2 * nearest_power_of_two_below x) ∧
    nearest_power_of_two_below (2 ^ k) = 2 ^ (k - 1) ∧
    nearest_power_of_two_below 10 = 8 ∧ bandWidth 10 = 2 := by
  refine ⟨⟨npb_is_pow2 x, npb_lt x hx, npb_ge x⟩, ?_, by decide, by decide⟩
  have h2 : 2 ≤ 2 ^ k := by
    calc 2 = 2 ^ 1 := by norm_num
      _ ≤ 2 ^ k := Nat.pow_le_pow_right (by norm_num) hk
  obtain ⟨j, hj⟩ := npb_is_pow2 (2 ^ k)
  have hlt : 2 ^ j < 2 ^ k := by rw [← hj]; exact npb_lt _ h2
  have hge : 2 ^ k ≤ 2 ^ (j + 1) := by
    have := npb_ge (2 ^ k)
    rw [hj] at this
    calc 2 ^ k ≤ 2 * 2 ^ j := this
      _ = 2 ^ (j + 1) := by ring
  have hjk : j < k := (Nat.pow_lt_pow_iff_right (by norm_num)).mp hlt
  have hkj : k ≤ j + 1 := (Nat.pow_le_pow_iff_right (by norm_num)).mp hge
  rw [hj]
  congr 1
  omega

/-- C4 witness: the characterization instantiated at `x = 6`, `k = 3`. -/
theorem C4_nearest_power_of_two_witness :
    ((∃ j, nearest_power_of_two_below 6 = 2 ^ j) ∧
      nearest_power_of_two_below 6 < 6 ∧ 6 ≤ 2 * nearest_power_of_two_below 6) ∧
    nearest_power_of_two_below (2 ^ 3) = 2 ^ (3 - 1) ∧
    nearest_power_of_two_below 10 = 8 ∧ bandWidth 10 = 2 :=
  C4_nearest_power_of_two 6 3 (by decide) (by decide)

/-- C4 counterexample: the claim says the helper returns the largest power
of two less than or equal to `totalColumns`; at `totalColumns = 8` (a power
of two) that would be 8 with band width 2, but the code returns 4 and band
width 1. -/
theorem C4_counterexample :
    nearest_power_of_two_below 8 = 4 ∧ nearest_power_of_two_below 8 ≠ 8 ∧
    bandWidth 8 = 1 ∧ (8 : ℕ) / 4 = 2 := by decide

/-- C3: the Window Segmenter emits exactly `floor(sampleCount / 2048)`
windows (the trailing remainder shorter than one window lies past the last
emitted window), and window `i` spans `[i*2048, min((i+1)*2048, sampleCount))`. -/
theorem C3_window_segmenter (n : ℕ) :
    SAMPLING_WINDOW * totalColumnsOf n ≤ n ∧
    n < SAMPLING_WINDOW * (totalColumnsOf n + 1) ∧
    ∀ i, i < totalColumnsOf n →
      sample_start i = i * 2048 ∧ sample_end n i = min ((i + 1) * 2048) n := by
  refine ⟨?_, ?_, fun i _ => ⟨rfl, rfl⟩⟩ <;>
    · simp only [totalColumnsOf, SAMPLING_WINDOW]
      omega

/-- C3 witness: the segmenter facts at `sampleCount = 5000` with window 1. -/
theorem C3_window_segmenter_witness :
    SAMPLING_WINDOW * totalColumnsOf 5000 ≤ 5000 ∧
    5000 < SAMPLING_WINDOW * (totalColumnsOf 5000 + 1) ∧
    sample_start 1 = 1 * 2048 ∧ sample_end 5000 1 = min ((1 + 1) * 2048) 5000 := by
  have h := C3_window_segmenter 5000
  exact ⟨h.1, h.2.1, (h.2.2 1 (by decide)).1, (h.2.2 1 (by decide)).2⟩

/-- C9: every emitted window is exactly 2048 samples long — for `i` below
the column count the `min` clamp never truncates — so every window meets
the FFT primitive's minimum size of 2 samples. -/
theorem C9_full_windows (n i : ℕ) (hi : i < totalColumnsOf n) :
    sample_end n i = (i + 1) * SAMPLING_WINDOW ∧
    sample_end n i - sample_start i = SAMPLING_WINDOW ∧
    2 ≤ sample_end n i - sample_start i := by
  have hle : (i + 1) * SAMPLING_WINDOW ≤ n := by
    simp only [totalColumnsOf, SAMPLING_WINDOW] at hi ⊢
    omega
  have he : sample_end n i = (i + 1) * SAMPLING_WINDOW := by
    rw [sample_end, min_eq_left hle]
  refine ⟨he, ?_, ?_⟩ <;>
    · rw [he, sample_start]
      simp only [SAMPLING_WINDOW]
      omega

/-- C9 witness: the window length facts at `sampleCount = 5000`, window 1. -/
theorem C9_full_windows_witness :
    sample_end 5000 1 = (1 + 1) * SAMPLING_WINDOW ∧
    sample_end 5000 1 - sample_start 1 = SAMPLING_WINDOW ∧
    2 ≤ sample_end 5000 1 - sample_start 1 :=
  C9_full_windows 5000 1 (by decide)

/-- C10: whenever the decoded stream yields at most 4 full windows
(including the empty stream), the derived band width is 0 and the band
count computation divides by zero, i.e. the checked layout returns none
before any column is processed. -/
theorem C10_div_by_zero (n hgt : ℕ) (h : totalColumnsOf n ≤ 4) :
    bandWidth (totalColumnsOf n) = 0 ∧ layoutChecked n hgt = none := by
  have hb : bandWidth (totalColumnsOf n) = 0 := by
    have hall : ∀ t, t ≤ 4 → bandWidth t = 0 := by decide
    exact hall _ h
  refine ⟨hb, ?_⟩
  rw [layoutChecked, rowCountChecked, hb]
  simp

/-- C10 witness: the empty stream (`sampleCount = 0`) has band width 0 and
no valid layout. -/
theorem C10_div_by_zero_witness :
    bandWidth (totalColumnsOf 0) = 0 ∧ layoutChecked 0 128 = none :=
  C10_div_by_zero 0 128 (by decide)

/-- C5 (amended): the code's band-layout quantities agree with the spec's
formulas (`bandCount = floor(total/w) + 1`, height `= rowsPerBand * bandCount`,
offset `= floor(i/w) * rowsPerBand`, in-band x `= i mod w`); the concrete
instance `totalColumns = 2*w + 5 ⇒ bandCount = 3`, with column `w+2` in
band 1 at in-band x 2, holds for `w ≥ 6` (not for all `w > 0`). -/
theorem C5_band_layout (hgt total w i : ℕ) (hw : 6 ≤ w) :
    row_count total w = spec_bandCount total w ∧
    img_height hgt total w = hgt * spec_bandCount total w ∧
    img_row_offset i w hgt = spec_bandIndex i w * hgt ∧
    img_x i w = spec_inBandX i w ∧
    row_count (2 * w + 5) w = 3 ∧
    spec_bandIndex (w + 2) w = 1 ∧ img_x (w + 2) w = 2 := by
  refine ⟨rfl, rfl, rfl, rfl, ?_, ?_, ?_⟩
  · have : (2 * w + 5) / w = 2 := by
      apply Nat.div_eq_of_lt_le <;> omega
    simp [row_count, this]
  · have : (w + 2) / w = 1 := by
      apply Nat.div_eq_of_lt_le <;> omega
    simp [spec_bandIndex, this]
  · have h1 : w + 2 = 2 + w := by omega
    rw [img_x, h1, Nat.add_mod_right]
    exact Nat.mod_eq_of_lt (by omega)

/-- C5 witness: the layout equalities instantiated at `w = 6`. -/
theorem C5_band_layout_witness :
    row_count 17 6 = spec_bandCount 17 6 ∧
    img_height 128 17 6 = 128 * spec_bandCount 17 6 ∧
    img_row_offset 8 6 128 = spec_bandIndex 8 6 * 128 ∧
    img_x 8 6 = spec_inBandX 8 6 ∧
    row_count (2 * 6 + 5) 6 = 3 ∧
    spec_bandIndex (6 + 2) 6 = 1 ∧ img_x (6 + 2) 6 = 2 :=
  C5_band_layout 128 17 6 8 (by decide)

/-- C5 counterexample: at `w = 2` (the band width actually derived for
`totalColumns = 2*2 + 5 = 9`), the claimed instance fails: the band count
is 5, not 3, and column `w + 2 = 4` maps to band 2 at in-band x 0. -/
theorem C5_counterexample :
    bandWidth 9 = 2 ∧ row_count (2 * 2 + 5) 2 = 5 ∧ (5 : ℕ) ≠ 3 ∧
    spec_bandIndex (2 + 2) 2 = 2 ∧ img_x (2 + 2) 2 = 0 ∧ (0 : ℕ) ≠ 2 := by
  decide

/- The Logarithmic-mode column fill (main.rs lines 126-129, 146-179).
A pixel write records the x coordinate, the row and the channel value
(the code stores the same value in all four channels). -/

structure Write where
  x : ℕ
  row : ℕ
  val : ℕ
  deriving DecidableEq

structure FillState where
  prev : ℕ
  row : ℕ
  deriving DecidableEq

/- `while img_row < stop` write-and-advance loop (main.rs lines 165-169 and
175-179), rendered by recursion on the number `stop - row` of iterations. -/

def fillRowsAux (x prev : ℕ) : ℕ → ℕ → List Write
  | _, 0 => []
  | row, n + 1 => ⟨x, row, prev⟩ :: fillRowsAux x prev (row + 1) n

def fillRows (x prev row stop : ℕ) : List Write := fillRowsAux x prev row (stop - row)

noncomputable def log10 (v : ℝ) : ℝ := Real.log v / Real.log 10

noncomputable def log_freq_min : ℝ := log10 freq_min

noncomputable def log_freq_max : ℝ := log10 FREQUENCY_MAX

/- Rust `as u8` on an f32: saturating conversion, truncating toward zero;
nonnegative inputs floor, negative inputs clamp to 0, large inputs to 255. -/

noncomputable def u8OfF32 (v : ℝ) : ℕ :=
  if v < 0 then 0 else min 255 (Int.toNat ⌊v⌋)

/- `prev_val = (val * 255.0) as u8` (main.rs lines 171-172): the Pixel
Quantizer of the spec. -/

noncomputable def quantize (m : ℝ) : ℕ := u8OfF32 (m * 255)

/- `img_row_target` (main.rs lines 160-163): `.round()` is round half away
from zero, which on the nonnegative values reaching it is `⌊v + 1/2⌋`. -/

noncomputable def img_row_target (hgt offset : ℕ) (freq : ℝ) : ℕ :=
  Int.toNat ⌊(log10 freq - log_freq_min) / (log_freq_max - log_freq_min) * hgt + 1 / 2⌋ +
    offset

/- One iteration of the pair loop (main.rs lines 152-173): skip the pair if
its log-frequency is out of range, else step-hold fill up to the target row
and quantize the magnitude into `prev`. -/

noncomputable def stepPair (hgt offset x : ℕ) (s : FillState) (p : ℝ × ℝ) :
    FillState × List Write :=
  if log10 p.1 < log_freq_min ∨ log_freq_max < log10 p.1 then (s, [])
  else
    (⟨quantize p.2, max s.row (img_row_target hgt offset p.1)⟩,
      fillRows x s.prev s.row (img_row_target hgt offset p.1))

noncomputable def processPairs (hgt offset x : ℕ) :
    List (ℝ × ℝ) → FillState → FillState × List Write
  | [], s => (s, [])
  | p :: ps, s =>
    ((processPairs hgt offset x ps (stepPair hgt offset x s p).1).1,
      (stepPair hgt offset x s p).2 ++
        (processPairs hgt offset x ps (stepPair hgt offset x s p).1).2)

/- A full column fill (main.rs lines 146-179): pair loop from
`prev_val = 0`, `img_row = img_row_offset`, then the trailing
`while img_row < img_height` fill. -/

noncomputable def columnFill (hgt w total i : ℕ) (frame : List (ℝ × ℝ)) : List Write :=
  let r := processPairs hgt (img_row_offset i w hgt) (img_x i w) frame
    ⟨0, img_row_offset i w hgt⟩
  r.2 ++ fillRows (img_x i w) r.1.prev r.1.row (img_height hgt total w)

def rowsOf (ws : List Write) : List ℕ := ws.map Write.row

/- The value of `img_row` observed before each pair-loop iteration and
after the last one. -/

noncomputable def rowTrace (hgt offset x : ℕ) : List (ℝ × ℝ) → FillState → List ℕ
  | [], s => [s.row]
  | p :: ps, s => s.row :: rowTrace hgt offset x ps (stepPair hgt offset x s p).1

def inRange (f : ℝ) : Prop :=
  ¬(log10 f < log_freq_min ∨ log_freq_max < log10 f)

/- Facts about the logarithmic frequency map. -/

lemma log_ten_pos : (0 : ℝ) < Real.log 10 := Real.log_pos (by norm_num)

lemma lfm_lt_lfM : log_freq_min < log_freq_max := by
  rw [log_freq_min, log_freq_max, log10, log10, div_lt_div_iff_of_pos_right log_ten_pos]
  exact Real.log_lt_log (by norm_num [freq_min]) (by norm_num [freq_min, FREQUENCY_MAX])

lemma log10_lt_min_iff {f : ℝ} (hf : 0 ≤ f) : log10 f < log_freq_min ↔ f < freq_min := by
  rw [log_freq_min, log10, log10, div_lt_div_iff_of_pos_right log_ten_pos]
  rcases eq_or_lt_of_le hf with h0 | h0
  · rw [← h0, Real.log_zero]
    exact iff_of_true (Real.log_pos (by norm_num [freq_min])) (by norm_num [freq_min])
  · exact Real.log_lt_log_iff h0 (by norm_num [freq_min])

lemma max_lt_log10_iff {f : ℝ} (hf : 0 ≤ f) : log_freq_max < log10 f ↔ FREQUENCY_MAX < f := by
  rw [log_freq_max, log10, log10, div_lt_div_iff_of_pos_right log_ten_pos]
  rcases eq_or_lt_of_le hf with h0 | h0
  · rw [← h0, Real.log_zero]
    exact iff_of_false (not_lt.mpr (Real.log_nonneg (by norm_num [FREQUENCY_MAX])))
      (by norm_num [FREQUENCY_MAX])
  · exact Real.log_lt_log_iff (by norm_num [FREQUENCY_MAX]) h0

/- An in-range pair's target row never passes the bottom edge of the band. -/

lemma img_row_target_le {hgt offset : ℕ} {f : ℝ} (h2 : ¬ log_freq_max < log10 f) :
    img_row_target hgt offset f ≤ offset + hgt := by
  rw [img_row_target]
  have hden : (0 : ℝ) < log_freq_max - log_freq_min := by
    have := lfm_lt_lfM
    linarith
  push_neg at h2
  have hq : (log10 f - log_freq_min) / (log_freq_max - log_freq_min) ≤ 1 := by
    rw [div_le_one hden]
    linarith
  have hmul : (log10 f - log_freq_min) / (log_freq_max - log_freq_min) * hgt ≤ hgt :=
    calc (log10 f - log_freq_min) / (log_freq_max - log_freq_min) * hgt
        ≤ 1 * (hgt : ℝ) := mul_le_mul_of_nonneg_right hq (Nat.cast_nonneg hgt)
      _ = hgt := one_mul _
  have hfl : ⌊(log10 f - log_freq_min) / (log_freq_max - log_freq_min) * hgt + 1 / 2⌋ ≤
      (hgt : ℤ) := by
    have : ⌊(log10 f - log_freq_min) / (log_freq_max - log_freq_min) * hgt + 1 / 2⌋ <
        (hgt : ℤ) + 1 := by
      apply Int.floor_lt.mpr
      push_cast
      linarith
    omega
  have := Int.toNat_le.mpr hfl
  omega

lemma img_row_target_mono {hgt offset : ℕ} {f g : ℝ} (hf0 : 0 ≤ f)
    (hfr : inRange f) (hfg : f ≤ g) :
    img_row_target hgt offset f ≤ img_row_target hgt offset g := by
  have h20 : freq_min ≤ f := by
    by_contra hlt
    push_neg at hlt
    exact hfr (Or.inl ((log10_lt_min_iff hf0).mpr hlt))
  have hfpos : (0 : ℝ) < f := lt_of_lt_of_le (by norm_num [freq_min]) h20
  have hlog : log10 f ≤ log10 g := by
    rw [log10, log10]
    exact (div_le_div_iff_of_pos_right log_ten_pos).mpr (Real.log_le_log hfpos hfg)
  have hden : (0 : ℝ) < log_freq_max - log_freq_min := by
    have := lfm_lt_lfM
    linarith
  have harg : (log10 f - log_freq_min) / (log_freq_max - log_freq_min) * hgt + 1 / 2 ≤
      (log10 g - log_freq_min) / (log_freq_max - log_freq_min) * hgt + 1 / 2 := by
    have hdiv : (log10 f - log_freq_min) / (log_freq_max - log_freq_min) ≤
        (log10 g - log_freq_min) / (log_freq_max - log_freq_min) :=
      (div_le_div_iff_of_pos_right hden).mpr (by linarith)
    have := mul_le_mul_of_nonneg_right hdiv (Nat.cast_nonneg (α := ℝ) hgt)
    linarith
  rw [img_row_target, img_row_target]
  exact Nat.add_le_add_right (Int.toNat_le_toNat (Int.floor_le_floor harg)) offset

/- Structural facts about the write stream of a column. -/

lemma rowsOf_append (a b : List Write) : rowsOf (a ++ b) = rowsOf a ++ rowsOf b :=
  List.map_append _ a b

lemma fillRowsAux_rows (x p : ℕ) :
    ∀ n row, rowsOf (fillRowsAux x p row n) = List.range' row n := by
  intro n
  induction n with
  | zero => intro row; rfl
  | succ m ih =>
    intro row
    show row :: rowsOf (fillRowsAux x p (row + 1) m) = List.range' row (m + 1)
    rw [ih (row + 1)]
    rfl

lemma fillRows_rows (x p row stop : ℕ) :
    rowsOf (fillRows x p row stop) = List.range' row (stop - row) :=
  fillRowsAux_rows x p (stop - row) row

lemma fillRowsAux_x (x p : ℕ) :
    ∀ n row, ∀ wr ∈ fillRowsAux x p row n, wr.x = x := by
  intro n
  induction n with
  | zero => intro row wr h; cases h
  | succ m ih =>
    intro row wr h
    rcases List.mem_cons.mp h with h | h
    · rw [h]
    · exact ih (row + 1) wr h

lemma fillRows_x (x p row stop : ℕ) : ∀ wr ∈ fillRows x p row stop, wr.x = x :=
  fillRowsAux_x x p (stop - row) row

lemma max_sub_left (a b : ℕ) : max a b - a = b - a := by
  rcases le_total a b with h | h
  · rw [max_eq_right h]
  · rw [max_eq_left h]
    omega

lemma range'_glue (a b c : ℕ) (hab : a ≤ b) (hbc : b ≤ c) :
    List.range' a (b - a) ++ List.range' b (c - b) = List.range' a (c - a) := by
  have e : b = a + (b - a) := by omega
  calc List.range' a (b - a) ++ List.range' b (c - b)
      = List.range' a (b - a) ++ List.range' (a + (b - a)) (c - b) := by rw [← e]
    _ = List.range' a (c - b + (b - a)) := List.range'_append_1 a (b - a) (c - b)
    _ = List.range' a (c - a) := by congr 1; omega

lemma stepPair_spec (hgt offset x : ℕ) (s : FillState) (p : ℝ × ℝ) :
    s.row ≤ (stepPair hgt offset x s p).1.row ∧
    rowsOf (stepPair hgt offset x s p).2 =
      List.range' s.row ((stepPair hgt offset x s p).1.row - s.row) ∧
    (∀ wr ∈ (stepPair hgt offset x s p).2, wr.x = x) ∧
    (s.row ≤ offset + hgt → (stepPair hgt offset x s p).1.row ≤ offset + hgt) := by
  rw [stepPair]
  split
  · simp [rowsOf]
  · next hc =>
    have ht : img_row_target hgt offset p.1 ≤ offset + hgt :=
      img_row_target_le (fun h => hc (Or.inr h))
    refine ⟨le_max_left _ _, ?_, fillRows_x x s.prev s.row _, fun hs => max_le hs ht⟩
    show rowsOf (fillRows x s.prev s.row (img_row_target hgt offset p.1)) =
      List.range' s.row (max s.row (img_row_target hgt offset p.1) - s.row)
    rw [fillRows_rows, max_sub_left]

lemma processPairs_spec (hgt offset x : ℕ) : ∀ (l : List (ℝ × ℝ)) (s : FillState),
    s.row ≤ (processPairs hgt offset x l s).1.row ∧
    rowsOf (processPairs hgt offset x l s).2 =
      List.range' s.row ((processPairs hgt offset x l s).1.row - s.row) ∧
    (∀ wr ∈ (processPairs hgt offset x l s).2, wr.x = x) ∧
    (s.row ≤ offset + hgt → (processPairs hgt offset x l s).1.row ≤ offset + hgt) := by
  intro l
  induction l with
  | nil =>
    intro s
    rw [processPairs]
    simp [rowsOf]
  | cons p ps ih =>
    intro s
    obtain ⟨h1, h2, h3, h4⟩ := stepPair_spec hgt offset x s p
    obtain ⟨g1, g2, g3, g4⟩ := ih (stepPair hgt offset x s p).1
    rw [processPairs]
    dsimp only
    refine ⟨le_trans h1 g1, ?_, ?_, fun hs => g4 (h4 hs)⟩
    · rw [rowsOf_append, h2, g2, range'_glue _ _ _ h1 g1]
    · intro wr hwr
      rcases List.mem_append.mp hwr with h | h
      · exact h3 wr h
      · exact g3 wr h

/- The band-row offset plus the band height never passes the image bottom
for any processed column. -/

lemma offset_add_hgt_le (hgt w total i : ℕ) (hi : i ≤ total) :
    img_row_offset i w hgt + hgt ≤ img_height hgt total w := by
  rw [img_row_offset, img_height, row_count]
  have hdiv : i / w ≤ total / w := Nat.div_le_div_right hi
  calc i / w * hgt + hgt = (i / w + 1) * hgt := by ring
    _ ≤ (total / w + 1) * hgt := Nat.mul_le_mul_right _ (by omega)
    _ = hgt * (total / w + 1) := Nat.mul_comm _ _

lemma columnFill_rows (hgt w total i : ℕ) (frame : List (ℝ × ℝ)) (hi : i < total) :
    rowsOf (columnFill hgt w total i frame) =
      List.range' (img_row_offset i w hgt)
        (img_height hgt total w - img_row_offset i w hgt) := by
  obtain ⟨h1, h2, h3, h4⟩ := processPairs_spec hgt (img_row_offset i w hgt) (img_x i w)
    frame ⟨0, img_row_offset i w hgt⟩
  have hb := h4 (Nat.le_add_right _ _)
  have hoff := offset_add_hgt_le hgt w total i (le_of_lt hi)
  have hfin : (processPairs hgt (img_row_offset i w hgt) (img_x i w) frame
      ⟨0, img_row_offset i w hgt⟩).1.row ≤ img_height hgt total w :=
    le_trans hb hoff
  rw [columnFill]
  rw [rowsOf_append, h2, fillRows_rows, range'_glue _ _ _ h1 hfin]

lemma count_range' (r : ℕ) : ∀ n s, (List.range' s n).count r =
    if s ≤ r ∧ r < s + n then 1 else 0 := by
  intro n
  induction n with
  | zero =>
    intro s
    rw [if_neg (by omega)]
    rfl
  | succ m ih =>
    intro s
    show (s :: List.range' (s + 1) m).count r = _
    rw [List.count_cons, ih (s + 1)]
    simp only [beq_iff_eq]
    split_ifs <;> omega

/-- C1 (amended): during any processed column's Logarithmic fill, every row
in `[bandRowOffset, bandRowOffset + rowsPerBand)` receives exactly one
pixel write, but the post-loop forward-fill runs to the bottom edge of the
whole image (`img_height`), not of the band: every row of the column from
the band offset down to `img_height - 1` is written exactly once, and rows
above the offset are never written. -/
theorem C1_column_fill (hgt w total i : ℕ) (frame : List (ℝ × ℝ))
    (hi : i < total) (r : ℕ) :
    (rowsOf (columnFill hgt w total i frame)).count r =
      if img_row_offset i w hgt ≤ r ∧ r < img_height hgt total w then 1 else 0 := by
  have hoff := offset_add_hgt_le hgt w total i (le_of_lt hi)
  rw [columnFill_rows hgt w total i frame hi, count_range']
  split_ifs <;> omega

/-- C1 witness: column 0 of a 5-column, band-width-1, band-height-1 image
writes row 3 exactly once. -/
theorem C1_column_fill_witness :
    (rowsOf (columnFill 1 1 5 0 [])).count 3 =
      if img_row_offset 0 1 1 ≤ 3 ∧ 3 < img_height 1 5 1 then 1 else 0 :=
  C1_column_fill 1 1 5 0 [] (by decide) 3

/-- C1 counterexample: with `totalColumns = 5`, `w = bandWidth 5 = 1` and
`rowsPerBand = 1`, column 0's fill writes row 2, which lies at or below the
band's bottom edge `bandRowOffset + rowsPerBand = 1` — refuting the claim
that no such row is written. -/
theorem C1_counterexample :
    bandWidth 5 = 1 ∧ (⟨0, 2, 0⟩ : Write) ∈ columnFill 1 1 5 0 [] ∧
    img_row_offset 0 1 1 + 1 ≤ 2 := by decide

lemma columnFill_x (hgt w total i : ℕ) (frame : List (ℝ × ℝ)) :
    ∀ wr ∈ columnFill hgt w total i frame, wr.x = img_x i w := by
  intro wr hwr
  rw [columnFill] at hwr
  rcases List.mem_append.mp hwr with h | h
  · exact (processPairs_spec hgt (img_row_offset i w hgt) (img_x i w) frame
      ⟨0, img_row_offset i w hgt⟩).2.2.1 wr h
  · exact fillRows_x _ _ _ _ wr h

/-- C2 (amended): a column's fill writes only pixels in its own
x-coordinate `i mod w`, so two columns with distinct in-band x-coordinates
have disjoint write sets; columns sharing an in-band x-coordinate are not
disjoint in general (the fill of an earlier band spills into later bands). -/
theorem C2_column_isolation (hgt w total i j : ℕ) (fi fj : List (ℝ × ℝ))
    (hne : i % w ≠ j % w) :
    (∀ wr ∈ columnFill hgt w total i fi, wr.x = img_x i w) ∧
    List.Disjoint (columnFill hgt w total i fi) (columnFill hgt w total j fj) := by
  refine ⟨columnFill_x hgt w total i fi, fun a hai haj => ?_⟩
  have h1 := columnFill_x hgt w total i fi a hai
  have h2 := columnFill_x hgt w total j fj a haj
  rw [img_x] at h1 h2
  omega

/-- C2 witness: with band width 2, columns 0 and 1 have disjoint writes. -/
theorem C2_column_isolation_witness :
    (∀ wr ∈ columnFill 1 2 2 0 [], wr.x = img_x 0 2) ∧
    List.Disjoint (columnFill 1 2 2 0 []) (columnFill 1 2 2 1 []) :=
  C2_column_isolation 1 2 2 0 1 [] [] (by decide)

/-- C2 counterexample: with `totalColumns = 5`, `w = 1`, `rowsPerBand = 1`,
the distinct columns 0 and 1 both write the pixel at x 0, row 1 — their
write sets are not disjoint, and column 0 writes outside its own band. -/
theorem C2_counterexample :
    (0 : ℕ) ≠ 1 ∧ (⟨0, 1, 0⟩ : Write) ∈ columnFill 1 1 5 0 [] ∧
    (⟨0, 1, 0⟩ : Write) ∈ columnFill 1 1 5 1 [] := by decide

/- The `img_row` trace of a column never decreases. -/

lemma rowTrace_chain (hgt offset x : ℕ) : ∀ (l : List (ℝ × ℝ)) (s : FillState),
    List.Chain' (· ≤ ·) (rowTrace hgt offset x l s) := by
  intro l
  induction l with
  | nil => intro s; exact List.chain'_singleton _
  | cons p ps ih =>
    intro s
    rw [rowTrace, List.chain'_cons']
    refine ⟨?_, ih _⟩
    intro y hy
    have hhead : (rowTrace hgt offset x ps (stepPair hgt offset x s p).1).head? =
        some (stepPair hgt offset x s p).1.row := by
      cases ps <;> rfl
    rw [hhead, Option.mem_some_iff] at hy
    rw [← hy]
    exact (stepPair_spec hgt offset x s p).1

/-- C6: `img_row` is non-decreasing throughout a column's fill, and for a
SpectrumFrame with nonnegative, strictly increasing frequencies, the target
rows of any two in-range pairs are in non-decreasing order. -/
theorem C6_monotone (hgt offset x : ℕ) (frame : List (ℝ × ℝ)) (s : FillState)
    (hpos : ∀ p ∈ frame, 0 ≤ p.1)
    (hinc : List.Chain' (fun p q : ℝ × ℝ => p.1 < q.1) frame) :
    List.Chain' (· ≤ ·) (rowTrace hgt offset x frame s) ∧
    List.Pairwise (fun p q : ℝ × ℝ => inRange p.1 → inRange q.1 →
      img_row_target hgt offset p.1 ≤ img_row_target hgt offset q.1) frame := by
  refine ⟨rowTrace_chain hgt offset x frame s, ?_⟩
  haveI : IsTrans (ℝ × ℝ) (fun p q : ℝ × ℝ => p.1 < q.1) :=
    ⟨fun _ _ _ h1 h2 => lt_trans h1 h2⟩
  have hpw := List.chain'_iff_pairwise.mp hinc
  refine List.Pairwise.imp_of_mem ?_ hpw
  intro a b ha _ hab hra _
  exact img_row_target_mono (hpos a ha) hra (le_of_lt hab)

/-- C6 witness: the monotonicity facts for the frame
`[(100 Hz, 0), (1000 Hz, 0)]`. -/
theorem C6_monotone_witness :
    List.Chain' (· ≤ ·)
      (rowTrace 4 0 0 [((100 : ℝ), (0 : ℝ)), ((1000 : ℝ), (0 : ℝ))] ⟨0, 0⟩) ∧
    List.Pairwise (fun p q : ℝ × ℝ => inRange p.1 → inRange q.1 →
      img_row_target 4 0 p.1 ≤ img_row_target 4 0 q.1)
      [((100 : ℝ), (0 : ℝ)), ((1000 : ℝ), (0 : ℝ))] :=
  C6_monotone 4 0 0 [((100 : ℝ), (0 : ℝ)), ((1000 : ℝ), (0 : ℝ))] ⟨0, 0⟩
    (by
      intro p hp
      rcases List.mem_cons.mp hp with h | h
      · rw [h]; norm_num
      · rcases List.mem_cons.mp h with h | h
        · rw [h]; norm_num
        · cases h)
    (by
      rw [List.chain'_cons]
      exact ⟨by norm_num, List.chain'_singleton _⟩)

/-- C7: a pair whose frequency lies below 20 Hz or above 10000 Hz produces
no pixel write and leaves `prev_val` and `img_row` untouched: the loop body
is the identity on the state, and removing such a pair from a frame leaves
the whole pair loop's result unchanged. -/
theorem C7_skip_out_of_range (hgt offset x : ℕ) (s s0 : FillState) (f m : ℝ)
    (pre post : List (ℝ × ℝ)) (hf : 0 ≤ f)
    (hout : f < freq_min ∨ FREQUENCY_MAX < f) :
    stepPair hgt offset x s (f, m) = (s, []) ∧
    processPairs hgt offset x (pre ++ (f, m) :: post) s0 =
      processPairs hgt offset x (pre ++ post) s0 := by
  have hguard : ∀ s' : FillState, stepPair hgt offset x s' (f, m) = (s', []) := by
    intro s'
    have hcond : log10 (f, m).1 < log_freq_min ∨ log_freq_max < log10 (f, m).1 := by
      rcases hout with h | h
      · exact Or.inl ((log10_lt_min_iff hf).mpr h)
      · exact Or.inr ((max_lt_log10_iff hf).mpr h)
    rw [stepPair, if_pos hcond]
  refine ⟨hguard s, ?_⟩
  induction pre generalizing s0 with
  | nil =>
    rw [List.nil_append, List.nil_append, processPairs, hguard s0]
    simp
  | cons q qs ih =>
    rw [List.cons_append, List.cons_append, processPairs, processPairs]
    rw [ih]

/-- C7 witness: a 10 Hz pair is skipped: the state `⟨7, 3⟩` is untouched,
no write is emitted, and the frame behaves as if the pair were absent. -/
theorem C7_skip_out_of_range_witness :
    stepPair 4 0 0 ⟨7, 3⟩ ((10 : ℝ), (1 / 2 : ℝ)) = (⟨7, 3⟩, []) ∧
    processPairs 4 0 0 ([] ++ ((10 : ℝ), (1 / 2 : ℝ)) :: []) ⟨0, 0⟩ =
      processPairs 4 0 0 ([] ++ []) ⟨0, 0⟩ :=
  C7_skip_out_of_range 4 0 0 ⟨7, 3⟩ ⟨0, 0⟩ 10 (1 / 2) [] [] (by norm_num)
    (Or.inl (by norm_num [freq_min]))

/-- C8: on magnitudes in `[0, 1]` the quantizer is exactly
`floor(m * 255)` — the saturating cast never clamps there — with
`quantize 1 = 255` and `quantize 0.999 = 254`. -/
theorem C8_quantize :
    (∀ m : ℝ, 0 ≤ m → m ≤ 1 → (quantize m : ℤ) = ⌊m * 255⌋) ∧
    quantize 1 = 255 ∧ quantize (0.999 : ℝ) = 254 := by
  have hmain : ∀ m : ℝ, 0 ≤ m → m ≤ 1 → (quantize m : ℤ) = ⌊m * 255⌋ := by
    intro m h0 h1
    rw [quantize, u8OfF32, if_neg (not_lt.mpr (by positivity))]
    have hub : ⌊m * 255⌋ ≤ 255 := by
      have hle : m * 255 ≤ (255 : ℝ) := by nlinarith
      calc ⌊m * 255⌋ ≤ ⌊(255 : ℝ)⌋ := Int.floor_le_floor hle
        _ = 255 := by norm_num
    have hlb : 0 ≤ ⌊m * 255⌋ := Int.floor_nonneg.mpr (by positivity)
    rw [min_eq_right (Int.toNat_le.mpr hub)]
    exact Int.toNat_of_nonneg hlb
  refine ⟨hmain, ?_, ?_⟩
  · have h := hmain 1 (by norm_num) (by norm_num)
    have he : (⌊(1 : ℝ) * 255⌋ : ℤ) = 255 := by norm_num
    omega
  · have h := hmain 0.999 (by norm_num) (by norm_num)
    have he : (⌊(0.999 : ℝ) * 255⌋ : ℤ) = 254 := by
      rw [Int.floor_eq_iff]
      norm_num
    omega

/-- C8 witness: the floor semantics applied at magnitude `1/2`. -/
theorem C8_quantize_witness :
    (quantize (1 / 2 : ℝ) : ℤ) = ⌊(1 / 2 : ℝ) * 255⌋ :=
  C8_quantize.1 (1 / 2) (by norm_num) (by norm_num)

end FftImage
